import Mathlib

/-!
# logrusjournal: a logrus hook that forwards entries to the systemd journal

A shallow embedding of `logrusjournal.go`.

* A Go `string` is a Lean `String`, read as its sequence of runes (`String.data`), the
  view that `strings.Map` and `strings.TrimLeft` take of it.
* A Go `map` that is only ranged over (`logrus.Fields`) is the list of its entries in the
  order in which `range` visits them; its keys are pairwise distinct.
* A Go `map` that is written to (`map[string]string`) is an association list, written
  with `GoMap.set` and read with `GoMap.get`.
* `journal.Send` is the only effect.  The journal is the list of records it has received,
  and its answer to a submission is a parameter `reply`.
* A nil pointer dereference is the outcome `Outcome.nilDeref`.
-/

namespace Logrusjournal

/-! ## Library functions used by the source -/

/-- Go `strings.Map`: the string of the images of the runes of `s`, in order.  (A negative
image would be dropped; runes here are `Char`s, which are never negative.) -/
def stringsMap (mapping : Char → Char) (s : String) : String :=
  ⟨s.data.map mapping⟩

/-- Go `strings.TrimLeft`: `s` without its longest prefix of runes contained in `cutset`. -/
def stringsTrimLeft (s cutset : String) : String :=
  ⟨s.data.dropWhile (fun r => cutset.data.contains r)⟩

/-- Go `strconv.Itoa`: the decimal text of an `int`. -/
def strconvItoa (i : Int) : String :=
  if i < 0 then "-" ++ Nat.repr i.natAbs else Nat.repr i.toNat

/-! ## Maps -/

/-- A Go `map[string]string` under construction: entries with pairwise distinct keys. -/
abbrev GoMap := List (String × String)

/-- The Go assignment `m[k] = v`: overwrite the entry of `k` if there is one, add it otherwise. -/
def GoMap.set : GoMap → String → String → GoMap
  | [], k, v => [(k, v)]
  | (k', v') :: m, k, v => if k' = k then (k, v) :: m else (k', v') :: GoMap.set m k v

/-- The Go lookup `m[k]` with its presence flag. -/
def GoMap.get : GoMap → String → Option String
  | [], _ => none
  | (k', v') :: m, k => if k' = k then some v' else GoMap.get m k

/-- The keys of the entries of a map, one per entry. -/
def GoMap.keys (m : GoMap) : List String := m.map Prod.fst

/-! ## `logrus` and `journal` declarations -/

/-- The type `logrus.Level`, an unsigned 32-bit integer. -/
abbrev Level := Nat

def PanicLevel : Level := 0
def FatalLevel : Level := 1
def ErrorLevel : Level := 2
def WarnLevel : Level := 3
def InfoLevel : Level := 4
def DebugLevel : Level := 5
def TraceLevel : Level := 6

/-- The slice `logrus.AllLevels`. -/
def AllLevels : List Level :=
  [PanicLevel, FatalLevel, ErrorLevel, WarnLevel, InfoLevel, DebugLevel, TraceLevel]

/-- The type `journal.Priority`, an `int`. -/
abbrev Priority := Int

def PriEmerg : Priority := 0
def PriAlert : Priority := 1
def PriCrit : Priority := 2
def PriErr : Priority := 3
def PriWarning : Priority := 4
def PriNotice : Priority := 5
def PriInfo : Priority := 6
def PriDebug : Priority := 7

/-- The fields of `runtime.Frame` that the hook reads. -/
structure Frame where
  File : String
  Line : Int
  Function : String
  deriving DecidableEq, Repr

/-- The fields of `logrus.Entry` that the hook reads.  `Data` lists the entries of the
`logrus.Fields` map in the order in which `range` visits them; `Caller` is a pointer, `none`
being nil. -/
structure Entry (V : Type) where
  Data : List (String × V)
  Level : Level
  Caller : Option Frame
  Message : String

/-- The three arguments of one call of `journal.Send`. -/
structure JournalRecord where
  message : String
  priority : Priority
  fields : GoMap
  deriving DecidableEq, Repr

/-- The result of running a function that returns an `error`: a runtime panic from a nil
pointer dereference, or a return with the error value (`none` is the nil error). -/
inductive Outcome (E : Type) where
  | nilDeref : Outcome E
  | returned (err : Option E) : Outcome E
  deriving DecidableEq, Repr

/-- One call of `journal.Send`: the journal receives the record and answers. -/
def journalSend {E : Type} (reply : JournalRecord → Option E) (journal : List JournalRecord)
    (message : String) (priority : Priority) (fields : GoMap) :
    List JournalRecord × Option E :=
  (journal ++ [⟨message, priority, fields⟩], reply ⟨message, priority, fields⟩)

/-! ## The source -/

/-- The type `Hook`, a struct without fields. -/
structure Hook where
  deriving DecidableEq, Repr

def JournalMessageID : String := "MESSAGE_ID"
def JournalCodeFile : String := "CODE_FILE"
def JournalCodeLine : String := "CODE_LINE"
def JournalCodeFunc : String := "CODE_FUNC"
def JournalErrno : String := "ERRNO"
def JournalInvocationID : String := "INVOCATION_ID"
def JournalUserInvocationID : String := "USER_INVOCATION_ID"
def JournalDocumentation : String := "DOCUMENTATION"
def JournalThreadID : String := "TID"

/-- The map literal `levelMap`, entry by entry. -/
def levelMap : List (Level × Priority) :=
  [ (TraceLevel, PriDebug),
    (DebugLevel, PriDebug),
    (InfoLevel, PriInfo),
    (WarnLevel, PriWarning),
    (ErrorLevel, PriErr),
    (FatalLevel, PriCrit),
    (PanicLevel, PriAlert) ]

/-- The index expression `levelMap[l]`: the zero priority when `l` is not a key. -/
def levelMapAt (l : Level) : Priority :=
  match levelMap.find? (fun e => e.1 = l) with
  | some e => e.2
  | none => 0

/-- `Hook.Levels`. -/
def Levels (_j : Hook) : List Level := AllLevels

/-- The function literal passed to `strings.Map` in `convertFieldName`. -/
def mapRune (r : Char) : Char :=
  if 'A' ≤ r ∧ r ≤ 'Z' then r
  else if '0' ≤ r ∧ r ≤ '9' then r
  else if 'a' ≤ r ∧ r ≤ 'z' then Char.ofNat (r.toNat - 32)
  else '_'

/-- `convertFieldName`. -/
def convertFieldName (s : String) : String :=
  stringsTrimLeft (stringsMap mapRune s) "_"

/-- `convertFields`: `sprint` is `fmt.Sprint` on the values of the map, `fields` the entries
in the order of the `range` loop. -/
def convertFields {V : Type} (sprint : V → String) (fields : List (String × V)) : GoMap :=
  fields.foldl (fun entries kv => GoMap.set entries (convertFieldName kv.1) (sprint kv.2)) []

/-- The statements of `Hook.Fire` between `convertFields` and `journal.Send`, for a caller
frame that is there. -/
def annotate (fields : GoMap) (caller : Frame) : GoMap :=
  let fields := if caller.File ≠ "" then GoMap.set fields JournalCodeFile caller.File else fields
  let fields :=
    if caller.Line ≠ 0 then GoMap.set fields JournalCodeLine (strconvItoa caller.Line) else fields
  if caller.Function ≠ "" then GoMap.set fields JournalCodeFunc caller.Function else fields

/-- `Hook.Fire`.  Reading `entry.Caller.File` dereferences `entry.Caller`: when the pointer is
nil the function panics there, before anything is submitted. -/
def Fire {V E : Type} (sprint : V → String) (reply : JournalRecord → Option E)
    (entry : Entry V) (journal : List JournalRecord) : List JournalRecord × Outcome E :=
  let fields := convertFields sprint entry.Data
  match entry.Caller with
  | none => (journal, Outcome.nilDeref)
  | some caller =>
    let fields := annotate fields caller
    let (journal, err) := journalSend reply journal entry.Message (levelMapAt entry.Level) fields
    (journal, Outcome.returned err)

/-! ## The specification's field key normalization -/

/-- The ASCII uppercase letters. -/
def upperLetters : List Char := "ABCDEFGHIJKLMNOPQRSTUVWXYZ".data

/-- The ASCII lowercase letters, in the order of `upperLetters`. -/
def lowerLetters : List Char := "abcdefghijklmnopqrstuvwxyz".data

/-- The ASCII digits. -/
def asciiDigits : List Char := "0123456789".data

/-- An ASCII letter or digit. -/
def isAlnum (c : Char) : Bool :=
  upperLetters.contains c || lowerLetters.contains c || asciiDigits.contains c

/-- The per-character mapping in the words of the specification: uppercase letters and digits
unchanged, a lowercase letter to the uppercase letter at the same place of the alphabet, every
other character to an underscore. -/
def specMapChar (c : Char) : Char :=
  if c ∈ upperLetters ∨ c ∈ asciiDigits then c
  else
    match (lowerLetters.zip upperLetters).lookup c with
    | some u => u
    | none => '_'

/-- Removal of the leading underscores of a sequence of characters. -/
def stripLeadingUnderscores : List Char → List Char
  | [] => []
  | c :: cs => if c = '_' then stripLeadingUnderscores cs else c :: cs

/-- Field key normalization in the words of the specification. -/
def specFieldName (s : String) : String :=
  ⟨stripLeadingUnderscores (s.data.map specMapChar)⟩

/-- The uppercase letter of a lowercase ASCII letter; any other character is left as it is. -/
def specToUpper (c : Char) : Char :=
  ((lowerLetters.zip upperLetters).lookup c).getD c

/-! ## The specification's severity table -/

/-- The Severity Mapping table of the specification, row by row. -/
def specPriority (l : Level) : Priority :=
  if l = TraceLevel then PriDebug
  else if l = DebugLevel then PriDebug
  else if l = InfoLevel then PriInfo
  else if l = WarnLevel then PriWarning
  else if l = ErrorLevel then PriErr
  else if l = FatalLevel then PriCrit
  else if l = PanicLevel then PriAlert
  else 0

/-- The order of the logging framework's levels, the most severe first. -/
def levelsBySeverity : List Level :=
  [PanicLevel, FatalLevel, ErrorLevel, WarnLevel, InfoLevel, DebugLevel, TraceLevel]

/-- The order of the journal's priorities below `Emerg`, the most severe first. -/
def prioritiesBySeverity : List Priority :=
  [PriAlert, PriCrit, PriErr, PriWarning, PriNotice, PriInfo, PriDebug]

/-- Level `a` is at least as severe as level `b`. -/
def levelAtLeastAsSevere (a b : Level) : Bool :=
  decide (levelsBySeverity.indexOf a ≤ levelsBySeverity.indexOf b)

/-- Priority `p` is at least as severe as priority `q`. -/
def priorityAtLeastAsSevere (p q : Priority) : Bool :=
  decide (prioritiesBySeverity.indexOf p ≤ prioritiesBySeverity.indexOf q)

/-! ## The journal's field names -/

/-- A character that a journal field name may contain: A-Z, 0-9 or the underscore. -/
def legalChar (c : Char) : Bool :=
  upperLetters.contains c || asciiDigits.contains c || c == '_'

/-- The name is made up of legal characters and does not begin with an underscore. -/
def wellFormedName (n : String) : Bool :=
  n.data.all legalChar && n.data.head? != some '_'

/-- A journal-legal field name: not empty, made up of legal characters, and not beginning with
an underscore. -/
def journalLegal (n : String) : Bool :=
  n != "" && wellFormedName n

/-- The nine exported field name constants. -/
def journalConstants : List String :=
  [JournalMessageID, JournalCodeFile, JournalCodeLine, JournalCodeFunc, JournalErrno,
    JournalInvocationID, JournalUserInvocationID, JournalDocumentation, JournalThreadID]

/-! ## Decimal text -/

/-- The number that a sequence of decimal digits denotes, the most significant digit first. -/
def decimalValue (cs : List Char) : Nat :=
  cs.foldl (fun acc c => 10 * acc + (c.toNat - '0'.toNat)) 0

/-- The sequence `cs` is the decimal numeral of `n`: one digit or more, digits only, denoting
`n`, and without a leading zero unless it is the numeral `0` itself. -/
def isDecimalNat (cs : List Char) (n : Nat) : Bool :=
  !cs.isEmpty && cs.all (fun c => asciiDigits.contains c) && decimalValue cs == n &&
    (cs.head? != some '0' || cs == ['0'])

/-- The string `t` is the decimal text of the integer `i`: the decimal numeral of `i` when `i`
is not negative, a minus sign followed by the decimal numeral of `-i` when it is. -/
def isDecimalText (t : String) (i : Int) : Bool :=
  if i < 0 then t.data.head? == some '-' && isDecimalNat t.data.tail i.natAbs
  else isDecimalNat t.data i.toNat

/-! ## Sample inputs -/

/-- The call site of the specification's example. -/
def sampleFrame : Frame := ⟨"/a/b.go", 42, "main.Run"⟩

/-- A caller record with no information in it. -/
def emptyFrame : Frame := ⟨"", 0, ""⟩

/-- A journal that accepts every record. -/
def acceptAll : JournalRecord → Option String := fun _ => none

/-- A journal that refuses every record. -/
def refuseAll : JournalRecord → Option String := fun _ => some "journal socket not available"

/-- An entry logged with caller reporting switched on. -/
def sampleEntry : Entry String :=
  ⟨[("user-id", "7")], WarnLevel, some sampleFrame, "disk almost full"⟩

/-- An entry logged with caller reporting switched off, the default of the logging framework:
the caller pointer is nil. -/
def plainEntry : Entry String :=
  ⟨[("user-id", "7")], InfoLevel, none, "started"⟩

/-- An entry whose data has a key that normalizes to `CODE_FILE`, with an empty caller record. -/
def codeKeyEntry : Entry String :=
  ⟨[("code_file", "x")], InfoLevel, some emptyFrame, "m"⟩

/-- An entry whose data has a key without any letter or digit. -/
def symbolKeyEntry : Entry String :=
  ⟨[("@", "x")], InfoLevel, some emptyFrame, "m"⟩

/-- An entry whose data has keys that normalize to the names of the code location fields. -/
def shadowedEntry : Entry String :=
  ⟨[("code-file", "data.go"), ("code_line", "1"), ("user-id", "7")], ErrorLevel,
    some sampleFrame, "failed"⟩

/-- An entry whose level is not one of the seven defined levels. -/
def oddLevelEntry : Entry String :=
  ⟨[("user-id", "7")], 9, some sampleFrame, "odd"⟩

/-! ## Characters -/

theorem char_le_iff (a b : Char) : a ≤ b ↔ a.toNat ≤ b.toNat := by
  rw [Char.le_def]; rfl

theorem char_eq_ofNat (r : Char) : r = Char.ofNat r.toNat := (Char.ofNat_toNat r).symm

/-- The source's `switch` with its bounds as numbers. -/
theorem mapRune_eq (r : Char) :
    mapRune r =
      if 65 ≤ r.toNat ∧ r.toNat ≤ 90 then r
      else if 48 ≤ r.toNat ∧ r.toNat ≤ 57 then r
      else if 97 ≤ r.toNat ∧ r.toNat ≤ 122 then Char.ofNat (r.toNat - 32)
      else '_' := by
  unfold mapRune
  simp only [char_le_iff]
  rfl

theorem ascii_cases (P : Char → Prop) (h : ∀ n, n < 128 → P (Char.ofNat n)) (r : Char)
    (hr : r.toNat < 128) : P r := by
  rw [char_eq_ofNat r]; exact h _ hr

theorem mapRune_ascii : ∀ n, n < 128 → mapRune (Char.ofNat n) = specMapChar (Char.ofNat n) := by
  decide

theorem alphabet_ascii :
    ∀ c ∈ upperLetters ++ asciiDigits ++ lowerLetters, c.toNat < 128 := by
  decide

theorem specMapChar_of_not_ascii (r : Char) (hr : 128 ≤ r.toNat) : specMapChar r = '_' := by
  have hU : r ∉ upperLetters := fun h =>
    absurd (alphabet_ascii r (by simp [h])) (by omega)
  have hD : r ∉ asciiDigits := fun h =>
    absurd (alphabet_ascii r (by simp [h])) (by omega)
  have hL : r ∉ lowerLetters := fun h =>
    absurd (alphabet_ascii r (by simp [h])) (by omega)
  have hlk : (lowerLetters.zip upperLetters).lookup r = none := by
    rw [List.lookup_eq_none_iff]
    intro p hp
    have hp1 : p.1 ∈ lowerLetters := (List.of_mem_zip hp).1
    have hne : r ≠ p.1 := fun h => hL (h ▸ hp1)
    simpa using hne
  unfold specMapChar
  rw [if_neg (by tauto), hlk]

/-- The function literal of the source is the per-character mapping of the specification. -/
theorem mapRune_eq_spec (r : Char) : mapRune r = specMapChar r := by
  by_cases hr : r.toNat < 128
  · exact ascii_cases (fun c => mapRune c = specMapChar c) mapRune_ascii r hr
  · rw [specMapChar_of_not_ascii r (by omega), mapRune_eq]
    rw [if_neg (by omega), if_neg (by omega), if_neg (by omega)]

theorem dropWhile_underscore (l : List Char) :
    l.dropWhile (fun r => "_".data.contains r) = stripLeadingUnderscores l := by
  induction l with
  | nil => rfl
  | cons c cs ih =>
    by_cases h : c = '_'
    · subst h
      simpa [stripLeadingUnderscores, List.dropWhile] using ih
    · have hc : ("_".data.contains c) = false := by
        have h2 : (c == '_') = false := by simpa using h
        simp [List.contains, List.elem, h2]
      simp [stripLeadingUnderscores, List.dropWhile, hc, h]

theorem convertFieldName_data (s : String) :
    (convertFieldName s).data = stripLeadingUnderscores (s.data.map mapRune) := by
  simp only [convertFieldName, stringsTrimLeft, stringsMap]
  exact dropWhile_underscore _

theorem strip_decompose (l : List Char) :
    ∃ n, l = List.replicate n '_' ++ stripLeadingUnderscores l ∧
      (stripLeadingUnderscores l).head? ≠ some '_' := by
  induction l with
  | nil => exact ⟨0, rfl, by simp [stripLeadingUnderscores]⟩
  | cons c cs ih =>
    by_cases h : c = '_'
    · obtain ⟨n, h1, h2⟩ := ih
      refine ⟨n + 1, ?_, ?_⟩
      · simp only [stripLeadingUnderscores, if_pos h, List.replicate_succ, List.cons_append]
        rw [← h1, h]
      · simpa only [stripLeadingUnderscores, if_pos h] using h2
    · refine ⟨0, ?_, ?_⟩
      · simp [stripLeadingUnderscores, h]
      · simp [stripLeadingUnderscores, h]

theorem isAlnum_ascii (c : Char) (h : isAlnum c = true) : c.toNat < 128 := by
  apply alphabet_ascii
  simp only [isAlnum, Bool.or_eq_true, List.contains_eq_any_beq, List.any_eq_true,
    beq_iff_eq] at h
  simp only [List.mem_append]
  rcases h with (⟨d, hd, rfl⟩ | ⟨d, hd, rfl⟩) | ⟨d, hd, rfl⟩
  · exact Or.inl (Or.inl hd)
  · exact Or.inr hd
  · exact Or.inl (Or.inr hd)

theorem mapRune_alnum_ascii : ∀ n, n < 128 → isAlnum (Char.ofNat n) = true →
    mapRune (Char.ofNat n) = specToUpper (Char.ofNat n) ∧ mapRune (Char.ofNat n) ≠ '_' ∧
      mapRune (mapRune (Char.ofNat n)) = mapRune (Char.ofNat n) := by
  decide

theorem mapRune_not_alnum_ascii : ∀ n, n < 128 → isAlnum (Char.ofNat n) = false →
    mapRune (Char.ofNat n) = '_' := by
  decide

/-- On a letter or digit the function literal gives the uppercase letter or the digit itself,
never an underscore, and maps its result to itself. -/
theorem mapRune_of_alnum (c : Char) (h : isAlnum c = true) :
    mapRune c = specToUpper c ∧ mapRune c ≠ '_' ∧ mapRune (mapRune c) = mapRune c :=
  ascii_cases
    (fun c => isAlnum c = true →
      mapRune c = specToUpper c ∧ mapRune c ≠ '_' ∧ mapRune (mapRune c) = mapRune c)
    mapRune_alnum_ascii c (isAlnum_ascii c h) h

/-- On anything but a letter or digit the function literal gives an underscore. -/
theorem mapRune_of_not_alnum (c : Char) (h : isAlnum c = false) : mapRune c = '_' := by
  by_cases hc : c.toNat < 128
  · exact ascii_cases (fun c => isAlnum c = false → mapRune c = '_')
      mapRune_not_alnum_ascii c hc h
  · rw [mapRune_eq, if_neg (by omega), if_neg (by omega), if_neg (by omega)]

theorem strip_map_append (p rest : List Char) (hp : ∀ c ∈ p, mapRune c = '_') :
    stripLeadingUnderscores (p.map mapRune ++ rest) = stripLeadingUnderscores rest := by
  induction p with
  | nil => rfl
  | cons c cs ih =>
    have hc : mapRune c = '_' := hp c (by simp)
    simp only [List.map_cons, List.cons_append, stripLeadingUnderscores, hc, if_true]
    exact ih (fun d hd => hp d (List.mem_cons_of_mem _ hd))

theorem strip_of_no_underscore (l : List Char) (h : ∀ c ∈ l, c ≠ '_') :
    stripLeadingUnderscores l = l := by
  cases l with
  | nil => rfl
  | cons c cs => simp [stripLeadingUnderscores, h c (by simp)]

theorem mapRune_legal_ascii : ∀ n, n < 128 →
    legalChar (mapRune (Char.ofNat n)) = true ∧
      mapRune (mapRune (Char.ofNat n)) = mapRune (Char.ofNat n) ∧
      (mapRune (Char.ofNat n) = '_' → isAlnum (Char.ofNat n) = false) := by
  decide

theorem mapRune_of_not_ascii (c : Char) (hc : 128 ≤ c.toNat) : mapRune c = '_' := by
  rw [mapRune_eq, if_neg (by omega), if_neg (by omega), if_neg (by omega)]

/-- The function literal gives legal characters only, maps its results to themselves, and gives
an underscore on nothing that is a letter or digit. -/
theorem mapRune_facts (c : Char) :
    legalChar (mapRune c) = true ∧ mapRune (mapRune c) = mapRune c ∧
      (mapRune c = '_' → isAlnum c = false) := by
  by_cases hc : c.toNat < 128
  · exact ascii_cases
      (fun c => legalChar (mapRune c) = true ∧ mapRune (mapRune c) = mapRune c ∧
        (mapRune c = '_' → isAlnum c = false))
      mapRune_legal_ascii c hc
  · have h : mapRune c = '_' := mapRune_of_not_ascii c (by omega)
    refine ⟨by rw [h]; decide, by rw [h]; decide, fun _ => ?_⟩
    cases hA : isAlnum c with
    | false => rfl
    | true => exact absurd (isAlnum_ascii c hA) hc

theorem mapRune_eq_underscore_iff (c : Char) : mapRune c = '_' ↔ isAlnum c = false :=
  ⟨(mapRune_facts c).2.2, mapRune_of_not_alnum c⟩

theorem strip_subset (l : List Char) : ∀ c ∈ stripLeadingUnderscores l, c ∈ l := by
  induction l with
  | nil => simp [stripLeadingUnderscores]
  | cons d ds ih =>
    intro c hc
    by_cases h : d = '_'
    · rw [stripLeadingUnderscores, if_pos h] at hc
      exact List.mem_cons_of_mem _ (ih c hc)
    · rw [stripLeadingUnderscores, if_neg h] at hc
      exact hc

theorem strip_head (l : List Char) : (stripLeadingUnderscores l).head? ≠ some '_' := by
  obtain ⟨_, _, h⟩ := strip_decompose l
  exact h

theorem strip_of_head (l : List Char) (h : l.head? ≠ some '_') :
    stripLeadingUnderscores l = l := by
  cases l with
  | nil => rfl
  | cons c cs =>
    have hc : c ≠ '_' := fun hc => h (by simp [hc])
    simp [stripLeadingUnderscores, hc]

theorem strip_eq_nil_iff (l : List Char) :
    stripLeadingUnderscores l = [] ↔ ∀ c ∈ l, c = '_' := by
  induction l with
  | nil => simp [stripLeadingUnderscores]
  | cons d ds ih =>
    by_cases h : d = '_'
    · simp [stripLeadingUnderscores, h, ih]
    · simp [stripLeadingUnderscores, h]

/-- Every character of a normalized name is legal, and the name does not begin with an
underscore. -/
theorem convertFieldName_wellFormed (s : String) :
    (∀ c ∈ (convertFieldName s).data, legalChar c = true) ∧
      (convertFieldName s).data.head? ≠ some '_' := by
  rw [convertFieldName_data]
  refine ⟨fun c hc => ?_, strip_head _⟩
  obtain ⟨d, _, rfl⟩ := List.mem_map.1 (strip_subset _ c hc)
  exact (mapRune_facts d).1

theorem legalChar_iff (c : Char) :
    legalChar c = true ↔ c ∈ upperLetters ∨ c ∈ asciiDigits ∨ c = '_' := by
  simp only [legalChar, Bool.or_eq_true, List.contains_eq_any_beq, List.any_eq_true,
    beq_iff_eq]
  constructor
  · rintro ((⟨d, hd, rfl⟩ | ⟨d, hd, rfl⟩) | h)
    · exact Or.inl hd
    · exact Or.inr (Or.inl hd)
    · exact Or.inr (Or.inr h)
  · rintro (h | h | h)
    · exact Or.inl (Or.inl ⟨c, h, rfl⟩)
    · exact Or.inl (Or.inr ⟨c, h, rfl⟩)
    · exact Or.inr h

theorem convertFieldName_eq_empty (s : String) :
    convertFieldName s = "" ↔ ∀ c ∈ s.data, isAlnum c = false := by
  have h1 : convertFieldName s = "" ↔ (convertFieldName s).data = [] :=
    ⟨fun h => by rw [h], fun h => String.ext h⟩
  rw [h1, convertFieldName_data, strip_eq_nil_iff]
  constructor
  · intro h c hc
    exact (mapRune_eq_underscore_iff c).1 (h _ (List.mem_map_of_mem mapRune hc))
  · intro h c hc
    obtain ⟨d, hd, rfl⟩ := List.mem_map.1 hc
    exact (mapRune_eq_underscore_iff d).2 (h d hd)

/-! ## Maps -/

theorem GoMap.get_set_same (m : GoMap) (k v : String) : (GoMap.set m k v).get k = some v := by
  induction m with
  | nil => simp [GoMap.set, GoMap.get]
  | cons e m ih =>
    obtain ⟨k', v'⟩ := e
    by_cases h : k' = k
    · simp [GoMap.set, GoMap.get, h]
    · simp [GoMap.set, GoMap.get, h, ih]

theorem GoMap.get_set_ne (m : GoMap) (k v n : String) (hn : n ≠ k) :
    (GoMap.set m k v).get n = m.get n := by
  induction m with
  | nil => simp [GoMap.set, GoMap.get, Ne.symm hn]
  | cons e m ih =>
    obtain ⟨k', v'⟩ := e
    by_cases h : k' = k
    · subst h
      simp [GoMap.set, GoMap.get, Ne.symm hn]
    · by_cases h2 : k' = n
      · subst h2
        simp [GoMap.set, GoMap.get, h]
      · simp [GoMap.set, GoMap.get, h, h2, ih]

theorem GoMap.mem_keys_iff (m : GoMap) (n : String) : n ∈ m.keys ↔ (m.get n).isSome := by
  induction m with
  | nil => simp [GoMap.keys, GoMap.get]
  | cons e m ih =>
    obtain ⟨k', v'⟩ := e
    by_cases h : k' = n
    · simp [GoMap.keys, GoMap.get, h]
    · have ih2 : n ∈ List.map Prod.fst m ↔ (GoMap.get m n).isSome := ih
      simp [GoMap.keys, GoMap.get, h, Ne.symm h, ih2]

theorem GoMap.keys_set (m : GoMap) (k v : String) :
    (GoMap.set m k v).keys = if k ∈ m.keys then m.keys else m.keys ++ [k] := by
  induction m with
  | nil => simp [GoMap.set, GoMap.keys]
  | cons e m ih =>
    obtain ⟨k', v'⟩ := e
    have ih2 : List.map Prod.fst (GoMap.set m k v) =
        if k ∈ List.map Prod.fst m then List.map Prod.fst m else List.map Prod.fst m ++ [k] := ih
    by_cases h : k' = k
    · simp [GoMap.set, GoMap.keys, h]
    · by_cases h2 : k ∈ List.map Prod.fst m
      · have h3 : ∃ x, (k, x) ∈ m := by simpa using h2
        simp [GoMap.set, GoMap.keys, h, ih2, h3]
      · have h3 : ¬ ∃ x, (k, x) ∈ m := by simpa using h2
        simp [GoMap.set, GoMap.keys, h, Ne.symm h, ih2, h3]

theorem GoMap.nodup_keys_set (m : GoMap) (k v : String) (h : m.keys.Nodup) :
    (GoMap.set m k v).keys.Nodup := by
  rw [GoMap.keys_set]
  split
  · exact h
  · rename_i hk
    exact List.Nodup.append h (List.nodup_singleton k) (by simpa using hk)

/-! ## `Fire` -/

/-- What `Fire` does when the caller pointer is not nil: one submission, whose answer it
returns. -/
theorem Fire_of_caller {V E : Type} (sprint : V → String) (reply : JournalRecord → Option E)
    (entry : Entry V) (journal : List JournalRecord) (caller : Frame)
    (hc : entry.Caller = some caller) :
    Fire sprint reply entry journal =
      (journal ++ [⟨entry.Message, levelMapAt entry.Level,
          annotate (convertFields sprint entry.Data) caller⟩],
        Outcome.returned (reply ⟨entry.Message, levelMapAt entry.Level,
          annotate (convertFields sprint entry.Data) caller⟩)) := by
  simp [Fire, hc, journalSend]

/-- What `Fire` does when the caller pointer is nil: it panics and submits nothing. -/
theorem Fire_of_nil {V E : Type} (sprint : V → String) (reply : JournalRecord → Option E)
    (entry : Entry V) (journal : List JournalRecord) (hc : entry.Caller = none) :
    Fire sprint reply entry journal = (journal, Outcome.nilDeref) := by
  simp [Fire, hc]

theorem levelMapAt_eq_spec (l : Level) (hl : l ∈ AllLevels) : levelMapAt l = specPriority l := by
  have h : ∀ x ∈ AllLevels, levelMapAt x = specPriority x := by decide
  exact h l hl

/-! ## `convertFields` -/

theorem convertFields_nil {V : Type} (sprint : V → String) : convertFields sprint [] = [] := rfl

/-- One more round of the `range` loop. -/
theorem convertFields_snoc {V : Type} (sprint : V → String) (fields : List (String × V))
    (kv : String × V) :
    convertFields sprint (fields ++ [kv]) =
      GoMap.set (convertFields sprint fields) (convertFieldName kv.1) (sprint kv.2) := by
  simp [convertFields, List.foldl_append]

theorem convertFields_mem_keys {V : Type} (sprint : V → String) (fields : List (String × V))
    (n : String) :
    n ∈ (convertFields sprint fields).keys ↔ ∃ kv ∈ fields, convertFieldName kv.1 = n := by
  induction fields using List.reverseRecOn generalizing n with
  | nil => simp [convertFields_nil, GoMap.keys]
  | append_singleton fields kv ih =>
    rw [convertFields_snoc, GoMap.keys_set]
    split
    · rename_i hk
      rw [ih]
      constructor
      · rintro ⟨x, hx, hxn⟩
        exact ⟨x, List.mem_append_left _ hx, hxn⟩
      · rintro ⟨x, hx, hxn⟩
        rcases List.mem_append.1 hx with hx | hx
        · exact ⟨x, hx, hxn⟩
        · have hxe : x = kv := by simpa using hx
          subst hxe
          subst hxn
          exact (ih _).1 hk
    · rw [List.mem_append, ih]
      constructor
      · rintro (⟨x, hx, hxn⟩ | h)
        · exact ⟨x, List.mem_append_left _ hx, hxn⟩
        · exact ⟨kv, by simp, (List.mem_singleton.1 h).symm⟩
      · rintro ⟨x, hx, hxn⟩
        rcases List.mem_append.1 hx with hx | hx
        · exact Or.inl ⟨x, hx, hxn⟩
        · have hxe : x = kv := by simpa using hx
          subst hxe
          exact Or.inr (List.mem_singleton.2 hxn.symm)

theorem convertFields_nodup_keys {V : Type} (sprint : V → String) (fields : List (String × V)) :
    (convertFields sprint fields).keys.Nodup := by
  induction fields using List.reverseRecOn with
  | nil => simp [convertFields_nil, GoMap.keys]
  | append_singleton fields kv ih =>
    rw [convertFields_snoc]
    exact GoMap.nodup_keys_set _ _ _ ih

/-- The entry visited last among those that normalize to a name decides the value of the name. -/
theorem convertFields_get_last {V : Type} (sprint : V → String) (pre post : List (String × V))
    (kv : String × V) (hpost : ∀ x ∈ post, convertFieldName x.1 ≠ convertFieldName kv.1) :
    (convertFields sprint (pre ++ kv :: post)).get (convertFieldName kv.1) =
      some (sprint kv.2) := by
  induction post using List.reverseRecOn with
  | nil =>
    rw [convertFields_snoc]
    exact GoMap.get_set_same _ _ _
  | append_singleton post x ih =>
    have hx : convertFieldName x.1 ≠ convertFieldName kv.1 := hpost x (by simp)
    have heq : pre ++ kv :: (post ++ [x]) = (pre ++ kv :: post) ++ [x] := by simp
    rw [heq, convertFields_snoc, GoMap.get_set_ne _ _ _ _ (Ne.symm hx)]
    exact ih (fun y hy => hpost y (List.mem_append_left _ hy))

theorem GoMap.get_eq_none_of_not_mem (m : GoMap) (n : String) (h : n ∉ m.keys) :
    m.get n = none := by
  have h2 : ¬ (m.get n).isSome := fun hs => h ((GoMap.mem_keys_iff m n).2 hs)
  simpa using h2

theorem GoMap.filter_of_get (m : GoMap) (n v : String) (hnd : m.keys.Nodup)
    (hget : m.get n = some v) : m.filter (fun e => e.1 = n) = [(n, v)] := by
  induction m with
  | nil => simp [GoMap.get] at hget
  | cons e m ih =>
    obtain ⟨k', v'⟩ := e
    have hnd2 : k' ∉ GoMap.keys m ∧ (GoMap.keys m).Nodup := by
      simpa [GoMap.keys] using hnd
    by_cases h : k' = n
    · subst h
      have hv : v' = v := by simpa [GoMap.get] using hget
      have hnone : m.filter (fun e => e.1 = k') = [] := by
        rw [List.filter_eq_nil_iff]
        intro e he
        have : e.1 ∈ GoMap.keys m := List.mem_map_of_mem Prod.fst he
        have hne : e.1 ≠ k' := fun h => hnd2.1 (h ▸ this)
        simpa using hne
      simp [List.filter, hnone, hv]
    · have hget2 : GoMap.get m n = some v := by simpa [GoMap.get, h] using hget
      simp [List.filter, h, ih hnd2.2 hget2]

/-- Without collisions every entry of the input decides the value of its own name. -/
theorem convertFields_get_of_injective {V : Type} (sprint : V → String)
    (fields : List (String × V)) (hkeys : (fields.map Prod.fst).Nodup)
    (hinj : ∀ a ∈ fields, ∀ b ∈ fields,
      convertFieldName a.1 = convertFieldName b.1 → a.1 = b.1)
    (kv : String × V) (hkv : kv ∈ fields) :
    (convertFields sprint fields).get (convertFieldName kv.1) = some (sprint kv.2) := by
  obtain ⟨pre, post, hsplit⟩ := List.append_of_mem hkv
  subst hsplit
  apply convertFields_get_last
  intro x hx heq
  have hxm : x ∈ pre ++ kv :: post := by simp [hx]
  have hk : x.1 = kv.1 := hinj x hxm kv hkv heq
  have hnd : kv.1 ∉ post.map Prod.fst := by
    have h1 : (pre.map Prod.fst ++ kv.1 :: post.map Prod.fst).Nodup := by
      simpa using hkeys
    have h2 := (List.nodup_append.1 h1).2.1
    exact (List.nodup_cons.1 h2).1
  exact hnd (hk ▸ List.mem_map_of_mem Prod.fst hx)

/-! ## `annotate` -/

theorem codeFile_ne_codeLine : JournalCodeFile ≠ JournalCodeLine := by decide

theorem codeFile_ne_codeFunc : JournalCodeFile ≠ JournalCodeFunc := by decide

theorem codeLine_ne_codeFunc : JournalCodeLine ≠ JournalCodeFunc := by decide

theorem annotate_get_codeFile (m : GoMap) (caller : Frame) :
    (annotate m caller).get JournalCodeFile =
      if caller.File ≠ "" then some caller.File else m.get JournalCodeFile := by
  unfold annotate
  by_cases h1 : caller.File = "" <;> by_cases h2 : caller.Line = 0 <;>
    by_cases h3 : caller.Function = "" <;>
    simp [h1, h2, h3, GoMap.get_set_same, GoMap.get_set_ne, codeFile_ne_codeLine,
      codeFile_ne_codeFunc]

theorem annotate_get_codeLine (m : GoMap) (caller : Frame) :
    (annotate m caller).get JournalCodeLine =
      if caller.Line ≠ 0 then some (strconvItoa caller.Line) else m.get JournalCodeLine := by
  unfold annotate
  by_cases h1 : caller.File = "" <;> by_cases h2 : caller.Line = 0 <;>
    by_cases h3 : caller.Function = "" <;>
    simp [h1, h2, h3, GoMap.get_set_same, GoMap.get_set_ne, codeFile_ne_codeLine.symm,
      codeLine_ne_codeFunc]

theorem annotate_get_codeFunc (m : GoMap) (caller : Frame) :
    (annotate m caller).get JournalCodeFunc =
      if caller.Function ≠ "" then some caller.Function else m.get JournalCodeFunc := by
  unfold annotate
  by_cases h1 : caller.File = "" <;> by_cases h2 : caller.Line = 0 <;>
    by_cases h3 : caller.Function = "" <;>
    simp [h1, h2, h3, GoMap.get_set_same, GoMap.get_set_ne, codeFile_ne_codeFunc.symm,
      codeLine_ne_codeFunc.symm]

theorem annotate_of_empty (m : GoMap) (caller : Frame) (hf : caller.File = "")
    (hl : caller.Line = 0) (hn : caller.Function = "") : annotate m caller = m := by
  simp [annotate, hf, hl, hn]

/-! ## Field names and values after `annotate` -/

theorem GoMap.get_set (m : GoMap) (k v n : String) :
    (GoMap.set m k v).get n = if n = k then some v else m.get n := by
  by_cases h : n = k
  · rw [if_pos h, h]
    exact GoMap.get_set_same m k v
  · rw [if_neg h]
    exact GoMap.get_set_ne m k v n h

theorem GoMap.mem_keys_set (m : GoMap) (k v n : String) :
    n ∈ (GoMap.set m k v).keys ↔ n = k ∨ n ∈ m.keys := by
  rw [GoMap.mem_keys_iff, GoMap.mem_keys_iff, GoMap.get_set]
  by_cases h : n = k
  · simp [h]
  · simp [h]

/-- The keys after `annotate` are those before it and the names of the location fields that
the caller record has a value for. -/
theorem annotate_mem_keys (m : GoMap) (caller : Frame) (n : String) :
    n ∈ (annotate m caller).keys ↔
      n ∈ m.keys ∨ (n = JournalCodeFile ∧ caller.File ≠ "") ∨
        (n = JournalCodeLine ∧ caller.Line ≠ 0) ∨
        (n = JournalCodeFunc ∧ caller.Function ≠ "") := by
  unfold annotate
  by_cases h1 : caller.File = "" <;> by_cases h2 : caller.Line = 0 <;>
    by_cases h3 : caller.Function = "" <;>
    simp only [h1, h2, h3, ne_eq, not_true_eq_false, not_false_eq_true, if_true, if_false,
      GoMap.mem_keys_set, and_true, and_false, or_false, false_or] <;>
    tauto

/-- A name that `annotate` does not write keeps its value. -/
theorem annotate_get_other (m : GoMap) (caller : Frame) (n : String)
    (hfile : n = JournalCodeFile → caller.File = "")
    (hline : n = JournalCodeLine → caller.Line = 0)
    (hfunc : n = JournalCodeFunc → caller.Function = "") :
    (annotate m caller).get n = m.get n := by
  unfold annotate
  by_cases h1 : caller.File = "" <;> by_cases h2 : caller.Line = 0 <;>
    by_cases h3 : caller.Function = "" <;>
    simp only [h1, h2, h3, ne_eq, not_true_eq_false, not_false_eq_true, if_true, if_false,
      GoMap.get_set]
  all_goals
    have e1 : n = JournalCodeFile → caller.File = "" := hfile
    have e2 : n = JournalCodeLine → caller.Line = 0 := hline
    have e3 : n = JournalCodeFunc → caller.Function = "" := hfunc
    by_cases g1 : n = JournalCodeFile <;> by_cases g2 : n = JournalCodeLine <;>
      by_cases g3 : n = JournalCodeFunc <;>
      simp_all

theorem codeNames_legal :
    ∀ n ∈ [JournalCodeFile, JournalCodeLine, JournalCodeFunc],
      wellFormedName n = true ∧ n ≠ "" := by
  decide

theorem wellFormedName_iff (n : String) :
    wellFormedName n = true ↔
      (∀ c ∈ n.data, legalChar c = true) ∧ n.data.head? ≠ some '_' := by
  simp [wellFormedName]

/-- Every key of the map that `Fire` builds is well formed, and the empty name comes from a
key of the data without letter or digit. -/
theorem annotate_convertFields_keys {V : Type} (sprint : V → String)
    (data : List (String × V)) (caller : Frame) (n : String)
    (hn : n ∈ (annotate (convertFields sprint data) caller).keys) :
    wellFormedName n = true ∧
      (n = "" → ∃ kv ∈ data, ∀ c ∈ kv.1.data, isAlnum c = false) := by
  rcases (annotate_mem_keys _ caller n).1 hn with h | h | h | h
  · obtain ⟨kv, hkv, rfl⟩ := (convertFields_mem_keys sprint data n).1 h
    exact ⟨(wellFormedName_iff _).2 (convertFieldName_wellFormed kv.1),
      fun he => ⟨kv, hkv, (convertFieldName_eq_empty kv.1).1 he⟩⟩
  · have := codeNames_legal n (by simp [h.1])
    exact ⟨this.1, fun he => absurd he this.2⟩
  · have := codeNames_legal n (by simp [h.1])
    exact ⟨this.1, fun he => absurd he this.2⟩
  · have := codeNames_legal n (by simp [h.1])
    exact ⟨this.1, fun he => absurd he this.2⟩

theorem six_lt_of_ne (l : Nat)
    (h : ¬l = 0 ∧ ¬l = 1 ∧ ¬l = 2 ∧ ¬l = 3 ∧ ¬l = 4 ∧ ¬l = 5 ∧ ¬l = 6) : 6 < l := by
  omega

theorem ne_of_six_lt (l : Nat) (h : 6 < l) : ∀ k : Nat, k ≤ 6 → ¬ k = l := by
  intro k hk
  omega

theorem levelMapAt_of_undefined (l : Level) (hl : l ∉ AllLevels) :
    TraceLevel < l ∧ levelMapAt l = PriEmerg := by
  have h6 : 6 < l := by
    simp only [AllLevels, PanicLevel, FatalLevel, ErrorLevel, WarnLevel, InfoLevel, DebugLevel,
      TraceLevel, List.mem_cons, List.mem_singleton, List.not_mem_nil, or_false, not_or] at hl
    exact six_lt_of_ne l hl
  refine ⟨h6, ?_⟩
  have hne := ne_of_six_lt l h6
  simp [levelMapAt, levelMap, List.find?, PanicLevel, FatalLevel, ErrorLevel, WarnLevel,
    InfoLevel, DebugLevel, TraceLevel, PriEmerg, hne]

/-! ## `strconv.Itoa` gives decimal text -/

theorem digitChar_facts : ∀ k, k < 10 →
    (Nat.digitChar k).toNat - '0'.toNat = k ∧ Nat.digitChar k ∈ asciiDigits ∧
      (k ≠ 0 → Nat.digitChar k ≠ '0') ∧ (k = 0 → Nat.digitChar k = '0') := by
  decide

theorem decimalValue_snoc (xs : List Char) (d : Char) :
    decimalValue (xs ++ [d]) = 10 * decimalValue xs + (d.toNat - '0'.toNat) := by
  simp [decimalValue, List.foldl_append]

/-- The digits that the library's conversion puts in front of `ds` are the decimal numeral of
`n`. -/
theorem toDigitsCore_decimal (fuel : Nat) :
    ∀ (n : Nat) (ds : List Char), n < fuel →
      ∃ xs, Nat.toDigitsCore 10 fuel n ds = xs ++ ds ∧ xs ≠ [] ∧
        (∀ c ∈ xs, c ∈ asciiDigits) ∧ decimalValue xs = n ∧
        (n ≠ 0 → xs.head? ≠ some '0') ∧ (n = 0 → xs = ['0']) := by
  induction fuel with
  | zero => intro n ds h; omega
  | succ fuel ih =>
    intro n ds h
    rw [Nat.toDigitsCore.eq_2]
    by_cases hq : n / 10 = 0
    · rw [if_pos hq]
      have hn : n < 10 := by omega
      have hm : n % 10 = n := by omega
      obtain ⟨f1, f2, f3, f4⟩ := digitChar_facts n hn
      rw [hm]
      refine ⟨[Nat.digitChar n], rfl, by simp, ?_, ?_, ?_, ?_⟩
      · intro c hc
        rw [List.mem_singleton.1 hc]
        exact f2
      · simpa [decimalValue] using f1
      · intro h0
        simpa using f3 h0
      · intro h0
        rw [f4 h0]
    · rw [if_neg hq]
      obtain ⟨xs, e1, e2, e3, e4, e5, _⟩ :=
        ih (n / 10) (Nat.digitChar (n % 10) :: ds) (by omega)
      obtain ⟨f1, f2, _, _⟩ := digitChar_facts (n % 10) (by omega)
      refine ⟨xs ++ [Nat.digitChar (n % 10)], by simp [e1], by simp, ?_, ?_, ?_, ?_⟩
      · intro c hc
        rcases List.mem_append.1 hc with hc | hc
        · exact e3 c hc
        · rw [List.mem_singleton.1 hc]
          exact f2
      · rw [decimalValue_snoc, e4, f1]
        omega
      · intro _
        cases xs with
        | nil => exact absurd rfl e2
        | cons x xs => simpa using e5 hq
      · intro h0
        omega

theorem toDigits_decimal (n : Nat) : isDecimalNat (Nat.toDigits 10 n) n = true := by
  obtain ⟨xs, e1, e2, e3, e4, e5, e6⟩ := toDigitsCore_decimal (n + 1) n [] (by omega)
  have hx : Nat.toDigits 10 n = xs := by
    simpa [Nat.toDigits] using e1
  rw [hx]
  have hall : xs.all (fun c => asciiDigits.contains c) = true := by
    rw [List.all_eq_true]
    intro c hc
    simpa using e3 c hc
  have hhead : (xs.head? != some '0' || xs == ['0']) = true := by
    by_cases h0 : n = 0
    · rw [e6 h0]
      decide
    · have := e5 h0
      simp [this]
  have hne : (!xs.isEmpty) = true := by
    cases xs with
    | nil => exact absurd rfl e2
    | cons x xs => rfl
  simp only [isDecimalNat, hne, hall, e4, hhead, beq_self_eq_true, Bool.and_self]

/-- The text that `strconv.Itoa` gives is the decimal text of its argument. -/
theorem strconvItoa_decimal (i : Int) : isDecimalText (strconvItoa i) i = true := by
  unfold isDecimalText strconvItoa
  by_cases hi : i < 0
  · have hd : ("-" ++ Nat.repr i.natAbs).data = '-' :: Nat.toDigits 10 i.natAbs := by
      rw [String.data_append]
      rfl
    simp only [if_pos hi, hd, List.head?_cons, List.tail_cons, beq_self_eq_true, Bool.true_and]
    exact toDigits_decimal _
  · have hd : (Nat.repr i.toNat).data = Nat.toDigits 10 i.toNat := rfl
    simp only [if_neg hi, hd]
    exact toDigits_decimal _

/-! ## Claims -/

/-- C1: for every field key `s`, `convertFieldName s` is the string the specification describes:
each character mapped on its own (A-Z and 0-9 unchanged, a-z to the uppercase letter, anything
else to an underscore), then the leading underscores removed and nothing else: the mapped string
is a run of underscores followed by the result, and the result does not start with one. -/
theorem convertFieldName_eq_specFieldName (s : String) :
    convertFieldName s = specFieldName s ∧
      ∃ n, s.data.map specMapChar = List.replicate n '_' ++ (convertFieldName s).data ∧
        (convertFieldName s).data.head? ≠ some '_' := by
  have hmap : s.data.map mapRune = s.data.map specMapChar :=
    List.map_congr_left (fun r _ => mapRune_eq_spec r)
  have hdata : (convertFieldName s).data = stripLeadingUnderscores (s.data.map specMapChar) := by
    rw [convertFieldName_data, hmap]
  refine ⟨String.ext hdata, ?_⟩
  rw [hdata]
  exact strip_decompose _


/-- C2: for an entry whose level is one of the seven defined levels, every record that `Fire`
submits carries the priority of the specification's table (Trace->Debug, Debug->Debug,
Info->Info, Warn->Warning, Error->Err, Fatal->Crit, Panic->Alert), and with a caller record
present `Fire` does submit one. -/
theorem Fire_priority_table {V E : Type} (sprint : V → String)
    (reply : JournalRecord → Option E) (entry : Entry V) (journal : List JournalRecord)
    (hl : entry.Level ∈ AllLevels) :
    ∃ sent, (Fire sprint reply entry journal).1 = journal ++ sent ∧
      (∀ r ∈ sent, r.priority = specPriority entry.Level) ∧
      (entry.Caller ≠ none → sent.length = 1) := by
  cases hc : entry.Caller with
  | none =>
    exact ⟨[], by simp [Fire_of_nil sprint reply entry journal hc], by simp, by simp⟩
  | some caller =>
    refine ⟨[⟨entry.Message, levelMapAt entry.Level,
      annotate (convertFields sprint entry.Data) caller⟩], ?_, ?_, by simp⟩
    · rw [Fire_of_caller sprint reply entry journal caller hc]
    · intro r hr
      rw [List.mem_singleton.1 hr]
      exact levelMapAt_eq_spec _ hl

theorem Fire_priority_table_witness :
    sampleEntry.Level ∈ AllLevels ∧
      ∃ sent, (Fire id acceptAll sampleEntry []).1 = [] ++ sent ∧
        (∀ r ∈ sent, r.priority = specPriority sampleEntry.Level) ∧
        (sampleEntry.Caller ≠ none → sent.length = 1) :=
  ⟨by decide, Fire_priority_table id acceptAll sampleEntry [] (by decide)⟩

/-- C3: for an entry with a caller record, `Fire` submits one record whose field mapping has
`CODE_FILE` equal to the caller's file when the file is not empty, `CODE_LINE` equal to the
decimal text of the caller's line when the line is not zero (the text `strconv.Itoa` gives,
which is the decimal numeral of the line, with a minus sign in front for a negative one), and
`CODE_FUNC` equal to the caller's function when the function is not empty; each of the three
depends on its own value only, a name whose value is absent keeping what the converted data has
for it. -/
theorem Fire_code_fields {V E : Type} (sprint : V → String)
    (reply : JournalRecord → Option E) (entry : Entry V) (journal : List JournalRecord)
    (caller : Frame) (hc : entry.Caller = some caller) :
    ∃ r, Fire sprint reply entry journal = (journal ++ [r], Outcome.returned (reply r)) ∧
      (caller.File ≠ "" → r.fields.get JournalCodeFile = some caller.File) ∧
      (caller.Line ≠ 0 →
        ∃ t, r.fields.get JournalCodeLine = some t ∧ t = strconvItoa caller.Line ∧
          isDecimalText t caller.Line = true) ∧
      (caller.Function ≠ "" → r.fields.get JournalCodeFunc = some caller.Function) ∧
      (caller.File = "" →
        r.fields.get JournalCodeFile = (convertFields sprint entry.Data).get JournalCodeFile) ∧
      (caller.Line = 0 →
        r.fields.get JournalCodeLine = (convertFields sprint entry.Data).get JournalCodeLine) ∧
      (caller.Function = "" →
        r.fields.get JournalCodeFunc = (convertFields sprint entry.Data).get JournalCodeFunc) := by
  refine ⟨_, Fire_of_caller sprint reply entry journal caller hc, ?_, ?_, ?_, ?_, ?_, ?_⟩
  · intro h
    simp only [annotate_get_codeFile, if_pos h]
  · intro h
    refine ⟨strconvItoa caller.Line, ?_, rfl, strconvItoa_decimal caller.Line⟩
    simp only [annotate_get_codeLine, if_pos h]
  · intro h
    simp only [annotate_get_codeFunc, if_pos h]
  · intro h
    simp only [annotate_get_codeFile, h, ne_eq, not_true_eq_false, if_false]
  · intro h
    simp only [annotate_get_codeLine, h, ne_eq, not_true_eq_false, if_false]
  · intro h
    simp only [annotate_get_codeFunc, h, ne_eq, not_true_eq_false, if_false]

theorem Fire_code_fields_witness :
    sampleEntry.Caller = some ⟨"/a/b.go", 42, "main.Run"⟩ ∧
      isDecimalText "42" 42 = true ∧ isDecimalText "042" 42 = false ∧
      isDecimalText "43" 42 = false ∧ isDecimalText "-7" (-7) = true ∧
      ∃ r, Fire id acceptAll sampleEntry [] = ([r], Outcome.returned (acceptAll r)) ∧
        r.fields.get "CODE_FILE" = some "/a/b.go" ∧
        r.fields.get "CODE_LINE" = some "42" ∧
        r.fields.get "CODE_FUNC" = some "main.Run" := by
  refine ⟨rfl, by decide, by decide, by decide, by decide, ?_⟩
  obtain ⟨r, h0, h1, h2, h3, _⟩ := Fire_code_fields id acceptAll sampleEntry [] sampleFrame rfl
  obtain ⟨t, ht, hte, _⟩ := h2 (by decide)
  have hline : r.fields.get JournalCodeLine = some "42" := by
    rw [ht, hte]
    decide
  exact ⟨r, h0, h1 (by decide), hline, h3 (by decide)⟩

/-- C4, as stated, fails: an entry whose data has the key `code_file` and whose caller record
is empty is submitted with the field name `CODE_FILE`. -/
theorem Fire_codeKeyEntry_has_codeFile :
    codeKeyEntry.Caller = some ⟨"", 0, ""⟩ ∧
      Fire id acceptAll codeKeyEntry [] =
        ([⟨"m", PriInfo, [("CODE_FILE", "x")]⟩], Outcome.returned none) ∧
      JournalCodeFile ∈ GoMap.keys [("CODE_FILE", "x")] := by
  decide

/-- C4, amended: for an entry whose caller record is empty (empty file, zero line, empty
function), `Fire` submits the converted data as it is, adding none of `CODE_FILE`, `CODE_LINE`,
`CODE_FUNC`: each of the three is a key of the submitted mapping exactly when a key of the
entry's data normalizes to it. -/
theorem Fire_empty_caller_fields {V E : Type} (sprint : V → String)
    (reply : JournalRecord → Option E) (entry : Entry V) (journal : List JournalRecord)
    (caller : Frame) (hc : entry.Caller = some caller) (hf : caller.File = "")
    (hl : caller.Line = 0) (hn : caller.Function = "") :
    ∃ r, Fire sprint reply entry journal = (journal ++ [r], Outcome.returned (reply r)) ∧
      r.fields = convertFields sprint entry.Data ∧
      ∀ n ∈ [JournalCodeFile, JournalCodeLine, JournalCodeFunc],
        (n ∈ r.fields.keys ↔ ∃ kv ∈ entry.Data, convertFieldName kv.1 = n) := by
  refine ⟨_, Fire_of_caller sprint reply entry journal caller hc, ?_, ?_⟩
  · exact annotate_of_empty _ _ hf hl hn
  · intro n _
    simp only [annotate_of_empty _ _ hf hl hn]
    exact convertFields_mem_keys sprint entry.Data n

theorem Fire_empty_caller_fields_witness :
    (⟨[("user-id", "7")], InfoLevel, some emptyFrame, "m"⟩ : Entry String).Caller =
        some emptyFrame ∧
      emptyFrame.File = "" ∧ emptyFrame.Line = 0 ∧ emptyFrame.Function = "" ∧
      ∃ r, Fire id acceptAll ⟨[("user-id", "7")], InfoLevel, some emptyFrame, "m"⟩ [] =
          ([] ++ [r], Outcome.returned (acceptAll r)) ∧
        r.fields = convertFields id [("user-id", "7")] ∧
        ∀ n ∈ [JournalCodeFile, JournalCodeLine, JournalCodeFunc],
          (n ∈ r.fields.keys ↔
            ∃ kv ∈ [(("user-id", "7") : String × String)], convertFieldName kv.1 = n) :=
  ⟨rfl, rfl, rfl, rfl,
    Fire_empty_caller_fields id acceptAll ⟨[("user-id", "7")], InfoLevel, some emptyFrame, "m"⟩ []
      emptyFrame rfl rfl rfl rfl⟩

/-- C5, at an entry logged without caller reporting: `Fire` panics on the nil caller pointer, the
journal has received no record, and no result of a submission is returned, while the same entry
with a caller record is submitted once and the refusal of the journal comes back as it is. -/
theorem Fire_plainEntry_submits_nothing :
    Fire id refuseAll plainEntry [] = ([], Outcome.nilDeref) ∧
      Fire id refuseAll ⟨[("user-id", "7")], InfoLevel, some emptyFrame, "started"⟩ [] =
        ([⟨"started", PriInfo, [("USER_ID", "7")]⟩],
          Outcome.returned (some "journal socket not available")) := by
  decide

/-- C6, at every entry whose caller pointer is nil: `Fire` does not reach the submission; it
panics with a nil pointer dereference and leaves the journal as it was. -/
theorem Fire_nil_caller_panics {V E : Type} (sprint : V → String)
    (reply : JournalRecord → Option E) (data : List (String × V)) (level : Level)
    (message : String) (journal : List JournalRecord) :
    Fire sprint reply ⟨data, level, none, message⟩ journal = (journal, Outcome.nilDeref) :=
  Fire_of_nil sprint reply _ journal rfl

/-- C7: for a key/value mapping (entries with pairwise distinct keys) and every order in which
its entries are visited, the keys of the result of `convertFields` are exactly the names
`convertFieldName k` of the input keys `k`; and when no two distinct input keys normalize to
the same name, the result maps `convertFieldName k` to the text of the value of `k` for every
input key `k`, and so is the same map for every order. -/
theorem convertFields_order_independent {V : Type} (sprint : V → String)
    (fields visited : List (String × V)) (hperm : visited.Perm fields)
    (hkeys : (fields.map Prod.fst).Nodup) :
    (∀ n, n ∈ (convertFields sprint visited).keys ↔
        ∃ kv ∈ fields, convertFieldName kv.1 = n) ∧
      ((∀ a ∈ fields, ∀ b ∈ fields,
          convertFieldName a.1 = convertFieldName b.1 → a.1 = b.1) →
        (∀ kv ∈ fields,
          (convertFields sprint visited).get (convertFieldName kv.1) = some (sprint kv.2)) ∧
        ∀ n, (convertFields sprint visited).get n = (convertFields sprint fields).get n) := by
  have hkeysV : (visited.map Prod.fst).Nodup :=
    (List.Perm.nodup_iff (List.Perm.map Prod.fst hperm)).2 hkeys
  have hmemK : ∀ n, n ∈ (convertFields sprint visited).keys ↔
      ∃ kv ∈ fields, convertFieldName kv.1 = n := by
    intro n
    rw [convertFields_mem_keys]
    constructor
    · rintro ⟨kv, hkv, h⟩
      exact ⟨kv, hperm.mem_iff.1 hkv, h⟩
    · rintro ⟨kv, hkv, h⟩
      exact ⟨kv, hperm.mem_iff.2 hkv, h⟩
  refine ⟨hmemK, fun hinj => ?_⟩
  have hinjV : ∀ a ∈ visited, ∀ b ∈ visited,
      convertFieldName a.1 = convertFieldName b.1 → a.1 = b.1 :=
    fun a ha b hb h => hinj a (hperm.mem_iff.1 ha) b (hperm.mem_iff.1 hb) h
  have hget : ∀ kv ∈ fields,
      (convertFields sprint visited).get (convertFieldName kv.1) = some (sprint kv.2) :=
    fun kv hkv =>
      convertFields_get_of_injective sprint visited hkeysV hinjV kv (hperm.mem_iff.2 hkv)
  refine ⟨hget, fun n => ?_⟩
  by_cases hn : ∃ kv ∈ fields, convertFieldName kv.1 = n
  · obtain ⟨kv, hkv, rfl⟩ := hn
    rw [hget kv hkv, convertFields_get_of_injective sprint fields hkeys hinj kv hkv]
  · rw [GoMap.get_eq_none_of_not_mem _ _ (fun h => hn ((hmemK n).1 h)),
      GoMap.get_eq_none_of_not_mem _ _
        (fun h => hn ((convertFields_mem_keys sprint fields n).1 h))]

theorem convertFields_order_independent_witness :
    [(("b-2", "y") : String × String), ("a.1", "x")].Perm [("a.1", "x"), ("b-2", "y")] ∧
      ([(("a.1", "x") : String × String), ("b-2", "y")].map Prod.fst).Nodup ∧
      (∀ n, n ∈ (convertFields id [("b-2", "y"), ("a.1", "x")]).keys ↔
        ∃ kv ∈ [(("a.1", "x") : String × String), ("b-2", "y")], convertFieldName kv.1 = n) ∧
      (convertFields id [("b-2", "y"), ("a.1", "x")]).get "A_1" = some "x" ∧
      (convertFields id [("b-2", "y"), ("a.1", "x")]).get "B_2" = some "y" := by
  have hperm : [(("b-2", "y") : String × String), ("a.1", "x")].Perm
      [("a.1", "x"), ("b-2", "y")] := List.Perm.swap _ _ _
  have hnd : ([(("a.1", "x") : String × String), ("b-2", "y")].map Prod.fst).Nodup := by decide
  have hinj : ∀ a ∈ [(("a.1", "x") : String × String), ("b-2", "y")],
      ∀ b ∈ [(("a.1", "x") : String × String), ("b-2", "y")],
      convertFieldName a.1 = convertFieldName b.1 → a.1 = b.1 := by decide
  obtain ⟨h1, h2⟩ := convertFields_order_independent id _ _ hperm hnd
  obtain ⟨h3, _⟩ := h2 hinj
  exact ⟨hperm, hnd, h1, h3 ("a.1", "x") (by simp), h3 ("b-2", "y") (by simp)⟩

/-- C8: when `k` is the last key visited among the keys that normalize to the name of `k`,
however many keys visited before it normalize to the same name (`user-id` before `USER_ID`), the
result of `convertFields` has exactly one entry for the name, and its value is the text of the
value of `k`. -/
theorem convertFields_collision_last_wins {V : Type} (sprint : V → String)
    (pre post : List (String × V)) (kv : String × V)
    (hlast : ∀ x ∈ post, convertFieldName x.1 ≠ convertFieldName kv.1) :
    (convertFields sprint (pre ++ kv :: post)).filter
        (fun e => e.1 = convertFieldName kv.1) = [(convertFieldName kv.1, sprint kv.2)] ∧
      (convertFields sprint (pre ++ kv :: post)).get (convertFieldName kv.1) =
        some (sprint kv.2) := by
  have hget := convertFields_get_last sprint pre post kv hlast
  exact ⟨GoMap.filter_of_get _ _ _ (convertFields_nodup_keys sprint _) hget, hget⟩

theorem convertFields_collision_last_wins_witness :
    "user-id" ≠ "USER_ID" ∧
      convertFieldName "user-id" = convertFieldName "USER_ID" ∧
      (∀ x ∈ ([] : List (String × String)), convertFieldName x.1 ≠ convertFieldName "USER_ID") ∧
      (convertFields id [("user-id", "1"), ("USER_ID", "2")]).filter
        (fun e => e.1 = "USER_ID") = [("USER_ID", "2")] ∧
      (convertFields id [("user-id", "1"), ("USER_ID", "2")]).get "USER_ID" = some "2" := by
  have h := convertFields_collision_last_wins id [("user-id", "1")] [] ("USER_ID", "2")
    (by simp)
  exact ⟨by decide, by decide, by simp, h.1, h.2⟩

/-- C9: for every key `s` and every string `p` none of whose characters is an ASCII letter or
digit, `convertFieldName (p ++ s) = convertFieldName s`: a leading run of such characters is
dropped entirely. -/
theorem convertFieldName_drop_prefix (p s : String)
    (hp : ∀ c ∈ p.data, isAlnum c = false) :
    convertFieldName (p ++ s) = convertFieldName s := by
  apply String.ext
  rw [convertFieldName_data, convertFieldName_data, String.data_append, List.map_append]
  exact strip_map_append _ _ (fun c hc => mapRune_of_not_alnum c (hp c hc))

theorem convertFieldName_drop_prefix_witness :
    (∀ c ∈ "__".data, isAlnum c = false) ∧ (∀ c ∈ "@".data, isAlnum c = false) ∧
      convertFieldName ("__" ++ "key") = convertFieldName "key" ∧
      convertFieldName ("@" ++ "key") = convertFieldName "key" ∧
      convertFieldName "key" = "KEY" :=
  ⟨by decide, by decide, convertFieldName_drop_prefix "__" "key" (by decide),
    convertFieldName_drop_prefix "@" "key" (by decide), by decide⟩

/-- C10: for a key made up of ASCII letters and digits only, `convertFieldName` returns the key
with each lowercase letter replaced by its uppercase letter and every other character
unchanged, of the same length and in the same order, and `convertFieldName` maps that result
to itself. -/
theorem convertFieldName_alnum (s : String) (hs : ∀ c ∈ s.data, isAlnum c = true) :
    convertFieldName s = ⟨s.data.map specToUpper⟩ ∧
      (convertFieldName s).length = s.length ∧
      convertFieldName (convertFieldName s) = convertFieldName s := by
  have hne : ∀ c ∈ s.data.map mapRune, c ≠ '_' := by
    intro c hc
    obtain ⟨d, hd, rfl⟩ := List.mem_map.1 hc
    exact (mapRune_of_alnum d (hs d hd)).2.1
  have hdata : (convertFieldName s).data = s.data.map mapRune := by
    rw [convertFieldName_data, strip_of_no_underscore _ hne]
  have hupper : s.data.map mapRune = s.data.map specToUpper :=
    List.map_congr_left (fun c hc => (mapRune_of_alnum c (hs c hc)).1)
  have hidem : (s.data.map mapRune).map mapRune = s.data.map mapRune := by
    rw [List.map_map]
    exact List.map_congr_left (fun c hc => (mapRune_of_alnum c (hs c hc)).2.2)
  refine ⟨String.ext (by rw [hdata, hupper]), ?_, ?_⟩
  · simp only [String.length, hdata, List.length_map]
  · apply String.ext
    rw [convertFieldName_data, hdata, hidem, strip_of_no_underscore _ hne]

theorem convertFieldName_alnum_witness :
    (∀ c ∈ "MsgId7".data, isAlnum c = true) ∧
      convertFieldName "MsgId7" = "MSGID7" ∧
      (convertFieldName "MsgId7").length = "MsgId7".length ∧
      convertFieldName (convertFieldName "MsgId7") = convertFieldName "MsgId7" :=
  ⟨by decide, (convertFieldName_alnum "MsgId7" (by decide)).1,
    (convertFieldName_alnum "MsgId7" (by decide)).2.1,
    (convertFieldName_alnum "MsgId7" (by decide)).2.2⟩

/-- C12: for every field key `s`, every character of `convertFieldName s` is one of A-Z, 0-9
or the underscore, and `convertFieldName s` does not begin with an underscore. -/
theorem convertFieldName_legal_chars (s : String) :
    (∀ c ∈ (convertFieldName s).data, c ∈ upperLetters ∨ c ∈ asciiDigits ∨ c = '_') ∧
      (convertFieldName s).data.head? ≠ some '_' :=
  ⟨fun c hc => (legalChar_iff c).1 ((convertFieldName_wellFormed s).1 c hc),
    (convertFieldName_wellFormed s).2⟩

/-- C15: `convertFieldName` is idempotent on every input. -/
theorem convertFieldName_idempotent (s : String) :
    convertFieldName (convertFieldName s) = convertFieldName s := by
  apply String.ext
  have hfix : (convertFieldName s).data.map mapRune = (convertFieldName s).data := by
    rw [convertFieldName_data]
    conv_rhs => rw [← List.map_id (stripLeadingUnderscores (s.data.map mapRune))]
    apply List.map_congr_left
    intro c hc
    obtain ⟨d, _, rfl⟩ := List.mem_map.1 (strip_subset _ c hc)
    exact (mapRune_facts d).2.1
  rw [convertFieldName_data (convertFieldName s), hfix]
  exact strip_of_head _ (convertFieldName_wellFormed s).2

/-- C16: `convertFieldName s` is the empty string exactly when `s` contains no ASCII letter
and no ASCII digit, as the empty key does; `convertFields` then stores the value of `s` under
the empty field name. -/
theorem convertFieldName_empty_iff {V : Type} (sprint : V → String) (s : String) (v : V)
    (pre post : List (String × V)) :
    (convertFieldName s = "" ↔ ∀ c ∈ s.data, isAlnum c = false) ∧
      convertFieldName "" = "" ∧
      ((∀ c ∈ s.data, isAlnum c = false) →
        convertFields sprint [(s, v)] = [("", sprint v)] ∧
        "" ∈ (convertFields sprint (pre ++ (s, v) :: post)).keys ∧
        ((∀ x ∈ post, convertFieldName x.1 ≠ "") →
          (convertFields sprint (pre ++ (s, v) :: post)).get "" = some (sprint v))) := by
  refine ⟨convertFieldName_eq_empty s, by decide, fun h => ?_⟩
  have he : convertFieldName s = "" := (convertFieldName_eq_empty s).2 h
  refine ⟨by simp [convertFields, GoMap.set, he], ?_, fun hpost => ?_⟩
  · exact (convertFields_mem_keys sprint _ "").2 ⟨(s, v), by simp, he⟩
  · have hl := convertFields_get_last sprint pre post (s, v)
      (fun x hx => by rw [he]; exact hpost x hx)
    rw [he] at hl
    exact hl

theorem convertFieldName_empty_iff_witness :
    (∀ c ∈ "@-é".data, isAlnum c = false) ∧
      convertFieldName "@-é" = "" ∧
      convertFields id [("@-é", "x")] = [("", "x")] ∧
      "" ∈ (convertFields id ([("a", "1")] ++ ("@-é", "x") :: [("b", "2")])).keys := by
  have h := convertFieldName_empty_iff id "@-é" "x" [("a", "1")] [("b", "2")]
  have hs : ∀ c ∈ "@-é".data, isAlnum c = false := by decide
  exact ⟨hs, h.1.2 hs, (h.2.2 hs).1, (h.2.2 hs).2.1⟩

/-- C11, as stated, fails: an entry whose data has the key `@` is submitted with a field whose
name is the empty string, which is not a journal-legal name. -/
theorem Fire_symbolKeyEntry_has_empty_name :
    Fire id acceptAll symbolKeyEntry [] =
        ([⟨"m", PriInfo, [("", "x")]⟩], Outcome.returned none) ∧
      "" ∈ GoMap.keys [("", "x")] ∧ journalLegal "" = false := by
  decide

/-- C11, amended: every field name in a mapping that `Fire` submits is made up only of A-Z, 0-9
and the underscore and does not begin with an underscore; the mapping has the empty field name
exactly when a key of the entry's data has no ASCII letter or digit in it, and every other name
in it is not empty.  With a caller record present `Fire` submits one such mapping. -/
theorem Fire_field_names_wellFormed {V E : Type} (sprint : V → String)
    (reply : JournalRecord → Option E) (entry : Entry V) (journal : List JournalRecord) :
    ∃ sent, (Fire sprint reply entry journal).1 = journal ++ sent ∧
      (entry.Caller ≠ none → sent.length = 1) ∧
      ∀ r ∈ sent,
        (∀ n ∈ r.fields.keys,
          (∀ c ∈ n.data, c ∈ upperLetters ∨ c ∈ asciiDigits ∨ c = '_') ∧
          n.data.head? ≠ some '_' ∧
          (n = "" → ∃ kv ∈ entry.Data, ∀ c ∈ kv.1.data, isAlnum c = false)) ∧
        ("" ∈ r.fields.keys ↔ ∃ kv ∈ entry.Data, ∀ c ∈ kv.1.data, isAlnum c = false) := by
  cases hc : entry.Caller with
  | none =>
    exact ⟨[], by simp [Fire_of_nil sprint reply entry journal hc], by simp, by simp⟩
  | some caller =>
    refine ⟨[⟨entry.Message, levelMapAt entry.Level,
      annotate (convertFields sprint entry.Data) caller⟩], ?_, by simp, ?_⟩
    · rw [Fire_of_caller sprint reply entry journal caller hc]
    · intro r hr
      rw [List.mem_singleton.1 hr]
      refine ⟨fun n hn => ?_, fun hn => ?_, fun hkv => ?_⟩
      · obtain ⟨hw, he⟩ := annotate_convertFields_keys sprint entry.Data caller n hn
        obtain ⟨hchars, hhead⟩ := (wellFormedName_iff n).1 hw
        exact ⟨fun c hc => (legalChar_iff c).1 (hchars c hc), hhead, he⟩
      · exact (annotate_convertFields_keys sprint entry.Data caller "" hn).2 rfl
      · obtain ⟨kv, hkv, hno⟩ := hkv
        apply (annotate_mem_keys _ caller "").2
        exact Or.inl ((convertFields_mem_keys sprint entry.Data "").2
          ⟨kv, hkv, (convertFieldName_eq_empty kv.1).2 hno⟩)

theorem Fire_field_names_wellFormed_witness :
    (∃ kv ∈ [(("user-id", "7") : String × String), ("@", "x")],
        ∀ c ∈ kv.1.data, isAlnum c = false) ∧
      ∃ sent, (Fire id acceptAll
          ⟨[("user-id", "7"), ("@", "x")], InfoLevel, some sampleFrame, "m"⟩ []).1 = [] ++ sent ∧
        sent.length = 1 ∧
        ∀ r ∈ sent, "" ∈ r.fields.keys ∧
          ∀ n ∈ r.fields.keys,
            (∀ c ∈ n.data, c ∈ upperLetters ∨ c ∈ asciiDigits ∨ c = '_') ∧
            n.data.head? ≠ some '_' := by
  have hkey : ∃ kv ∈ [(("user-id", "7") : String × String), ("@", "x")],
      ∀ c ∈ kv.1.data, isAlnum c = false := ⟨("@", "x"), by simp, by decide⟩
  obtain ⟨sent, h1, h2, h3⟩ := Fire_field_names_wellFormed id acceptAll
    ⟨[("user-id", "7"), ("@", "x")], InfoLevel, some sampleFrame, "m"⟩ []
  refine ⟨hkey, sent, h1, h2 (by simp), fun r hr => ⟨(h3 r hr).2.2 hkey, fun n hn => ?_⟩⟩
  exact ⟨((h3 r hr).1 n hn).1, ((h3 r hr).1 n hn).2.1⟩

/-- C13: `Levels` returns a list that contains each of the seven defined levels and nothing
else, whatever the hook value; it reads no state, so no earlier call has a say in it. -/
theorem Levels_all_levels (j j' : Hook) :
    (∀ l, l ∈ Levels j ↔
        l = PanicLevel ∨ l = FatalLevel ∨ l = ErrorLevel ∨ l = WarnLevel ∨ l = InfoLevel ∨
          l = DebugLevel ∨ l = TraceLevel) ∧
      (Levels j).length = 7 ∧ Levels j = Levels j' := by
  refine ⟨fun l => ?_, rfl, rfl⟩
  simp [Levels, AllLevels]

/-- C14: each of the nine exported field name constants is a journal-legal name and a fixed
point of `convertFieldName`, so a field of an entry keyed by one of them is submitted under
that very name. -/
theorem journalConstants_fixed {V E : Type} (sprint : V → String)
    (reply : JournalRecord → Option E) (n : String) (hn : n ∈ journalConstants) :
    journalLegal n = true ∧ convertFieldName n = n ∧
      ∀ (entry : Entry V) (journal : List JournalRecord) (caller : Frame) (v : V),
        entry.Caller = some caller → (n, v) ∈ entry.Data →
        ∃ r, Fire sprint reply entry journal = (journal ++ [r], Outcome.returned (reply r)) ∧
          n ∈ r.fields.keys := by
  have h : ∀ m ∈ journalConstants, journalLegal m = true ∧ convertFieldName m = m := by
    decide
  refine ⟨(h n hn).1, (h n hn).2, fun entry journal caller v hc hd => ?_⟩
  refine ⟨_, Fire_of_caller sprint reply entry journal caller hc, ?_⟩
  apply (annotate_mem_keys _ caller n).2
  exact Or.inl ((convertFields_mem_keys sprint entry.Data n).2 ⟨(n, v), hd, (h n hn).2⟩)

theorem journalConstants_fixed_witness :
    JournalMessageID ∈ journalConstants ∧
      journalLegal "MESSAGE_ID" = true ∧ convertFieldName "MESSAGE_ID" = "MESSAGE_ID" ∧
      ∃ r, Fire id acceptAll ⟨[("MESSAGE_ID", "ab12")], InfoLevel, some sampleFrame, "m"⟩ [] =
          ([] ++ [r], Outcome.returned (acceptAll r)) ∧
        "MESSAGE_ID" ∈ r.fields.keys := by
  have h := journalConstants_fixed id acceptAll JournalMessageID (by decide)
  exact ⟨by decide, h.1, h.2.1,
    h.2.2 ⟨[("MESSAGE_ID", "ab12")], InfoLevel, some sampleFrame, "m"⟩ [] sampleFrame "ab12" rfl
      (by simp [JournalMessageID])⟩

/-- C17: the caller record takes precedence over the data: with a caller record present, the
submitted value of `CODE_FILE` (of `CODE_LINE`, of `CODE_FUNC`) is the caller's file (line,
function) whenever that is not empty (not zero), whatever the data has under a key that
normalizes to the name; every other field is submitted with the value of the converted data. -/
theorem Fire_caller_precedence {V E : Type} (sprint : V → String)
    (reply : JournalRecord → Option E) (entry : Entry V) (journal : List JournalRecord)
    (caller : Frame) (hc : entry.Caller = some caller) :
    ∃ r, Fire sprint reply entry journal = (journal ++ [r], Outcome.returned (reply r)) ∧
      (caller.File ≠ "" → r.fields.get JournalCodeFile = some caller.File) ∧
      (caller.Line ≠ 0 → r.fields.get JournalCodeLine = some (strconvItoa caller.Line)) ∧
      (caller.Function ≠ "" → r.fields.get JournalCodeFunc = some caller.Function) ∧
      ∀ n, (n = JournalCodeFile → caller.File = "") → (n = JournalCodeLine → caller.Line = 0) →
        (n = JournalCodeFunc → caller.Function = "") →
        r.fields.get n = (convertFields sprint entry.Data).get n := by
  refine ⟨_, Fire_of_caller sprint reply entry journal caller hc, ?_, ?_, ?_, ?_⟩
  · intro h
    simp only [annotate_get_codeFile, if_pos h]
  · intro h
    simp only [annotate_get_codeLine, if_pos h]
  · intro h
    simp only [annotate_get_codeFunc, if_pos h]
  · intro n h1 h2 h3
    exact annotate_get_other _ caller n h1 h2 h3

theorem Fire_caller_precedence_witness :
    shadowedEntry.Caller = some sampleFrame ∧
      (convertFields id shadowedEntry.Data).get "CODE_FILE" = some "data.go" ∧
      (convertFields id shadowedEntry.Data).get "CODE_LINE" = some "1" ∧
      ∃ r, Fire id acceptAll shadowedEntry [] = ([r], Outcome.returned (acceptAll r)) ∧
        r.fields.get "CODE_FILE" = some "/a/b.go" ∧
        r.fields.get "CODE_LINE" = some "42" ∧
        r.fields.get "CODE_FUNC" = some "main.Run" ∧
        r.fields.get "USER_ID" = some "7" := by
  refine ⟨rfl, by decide, by decide, ?_⟩
  obtain ⟨r, h0, h1, h2, h3, h4⟩ :=
    Fire_caller_precedence id acceptAll shadowedEntry [] sampleFrame rfl
  refine ⟨r, h0, h1 (by decide), h2 (by decide), h3 (by decide), ?_⟩
  rw [h4 "USER_ID" (by decide) (by decide) (by decide)]
  decide

/-- An undefined level and the caller pointer: for an entry whose level is not one of the seven
defined levels, that is any level above Trace, the lookup in `levelMap` gives the zero priority
`Emerg`, which is below, so more severe than, every priority of the table; every record `Fire`
submits for the entry carries it, and `Fire` submits one when the caller pointer is not nil. -/
theorem Fire_undefined_level {V E : Type} (sprint : V → String)
    (reply : JournalRecord → Option E) (entry : Entry V) (journal : List JournalRecord)
    (hl : entry.Level ∉ AllLevels) :
    TraceLevel < entry.Level ∧ levelMapAt entry.Level = PriEmerg ∧ PriEmerg = 0 ∧
      (∀ e ∈ levelMap, PriEmerg < e.2) ∧
      ∃ sent, (Fire sprint reply entry journal).1 = journal ++ sent ∧
        (∀ r ∈ sent, r.priority = PriEmerg) ∧
        (entry.Caller ≠ none → sent.length = 1) := by
  obtain ⟨h6, h0⟩ := levelMapAt_of_undefined entry.Level hl
  refine ⟨h6, h0, rfl, by decide, ?_⟩
  cases hc : entry.Caller with
  | none =>
    exact ⟨[], by simp [Fire_of_nil sprint reply entry journal hc], by simp, by simp⟩
  | some caller =>
    refine ⟨[⟨entry.Message, levelMapAt entry.Level,
      annotate (convertFields sprint entry.Data) caller⟩], ?_, ?_, by simp⟩
    · rw [Fire_of_caller sprint reply entry journal caller hc]
    · intro r hr
      rw [List.mem_singleton.1 hr]
      exact h0

theorem Fire_undefined_level_witness :
    oddLevelEntry.Level ∉ AllLevels ∧
      levelMapAt oddLevelEntry.Level = PriEmerg ∧
      ∃ sent, (Fire id acceptAll oddLevelEntry []).1 = [] ++ sent ∧
        (∀ r ∈ sent, r.priority = PriEmerg) ∧
        (oddLevelEntry.Caller ≠ none → sent.length = 1) :=
  ⟨by decide, (Fire_undefined_level id acceptAll oddLevelEntry [] (by decide)).2.1,
    (Fire_undefined_level id acceptAll oddLevelEntry [] (by decide)).2.2.2.2⟩

/-- C18, at an entry of level 9 logged without caller reporting: the level is none of the seven,
the lookup gives the zero priority `Emerg`, below every priority of the table, but `Fire` panics
on the nil caller pointer and the journal receives no record; the same entry with a caller record
is submitted, with priority `Emerg`. -/
theorem Fire_undefined_level_nil_caller :
    (9 : Level) ∉ AllLevels ∧ levelMapAt 9 = PriEmerg ∧ (∀ e ∈ levelMap, PriEmerg < e.2) ∧
      Fire id acceptAll ⟨[("user-id", "7")], 9, none, "odd"⟩ [] = ([], Outcome.nilDeref) ∧
      Fire id acceptAll ⟨[("user-id", "7")], 9, some emptyFrame, "odd"⟩ [] =
        ([⟨"odd", PriEmerg, [("USER_ID", "7")]⟩], Outcome.returned none) := by
  decide

/-- C19: the table preserves the order of severity: for two defined levels `a` and `b`, if `a`
is at least as severe as `b` (Panic > Fatal > Error > Warn > Info > Debug > Trace), then the
priority of `a` is at least as severe as the priority of `b` (Alert > Crit > Err > Warning >
Notice > Info > Debug), both priorities being in that list; two distinct levels with the same
priority are Trace and Debug, which do have the same priority. -/
theorem levelMap_order_preserving (a b : Level) (ha : a ∈ AllLevels) (hb : b ∈ AllLevels) :
    levelMapAt a ∈ prioritiesBySeverity ∧ levelMapAt b ∈ prioritiesBySeverity ∧
      (levelAtLeastAsSevere a b = true →
        priorityAtLeastAsSevere (levelMapAt a) (levelMapAt b) = true) ∧
      (a ≠ b → levelMapAt a = levelMapAt b →
        (a = TraceLevel ∧ b = DebugLevel) ∨ (a = DebugLevel ∧ b = TraceLevel)) ∧
      levelMapAt TraceLevel = levelMapAt DebugLevel := by
  have h : ∀ x ∈ AllLevels, ∀ y ∈ AllLevels,
      levelMapAt x ∈ prioritiesBySeverity ∧ levelMapAt y ∈ prioritiesBySeverity ∧
      (levelAtLeastAsSevere x y = true →
        priorityAtLeastAsSevere (levelMapAt x) (levelMapAt y) = true) ∧
      (x ≠ y → levelMapAt x = levelMapAt y →
        (x = TraceLevel ∧ y = DebugLevel) ∨ (x = DebugLevel ∧ y = TraceLevel)) ∧
      levelMapAt TraceLevel = levelMapAt DebugLevel := by
    decide
  exact h a ha b hb

theorem levelMap_order_preserving_witness :
    PanicLevel ∈ AllLevels ∧ InfoLevel ∈ AllLevels ∧
      levelAtLeastAsSevere PanicLevel InfoLevel = true ∧
      priorityAtLeastAsSevere (levelMapAt PanicLevel) (levelMapAt InfoLevel) = true ∧
      levelMapAt TraceLevel = levelMapAt DebugLevel :=
  ⟨by decide, by decide, by decide,
    (levelMap_order_preserving PanicLevel InfoLevel (by decide) (by decide)).2.2.1 (by decide),
    (levelMap_order_preserving PanicLevel InfoLevel (by decide) (by decide)).2.2.2.2⟩

end Logrusjournal
